import Mathlib

/-!
Shallow embedding of the Huffman text compressor (`src/lib.rs`) and proofs
about its specification claims.

Modelling conventions:
* `BitVec` codes (crate type `bitvec::BitVec<LittleEndian, u8>`) are `List Bool`
  with index 0 = bit index 0 of the Rust bitvec (for `LittleEndian` cursor this
  is the least significant bit of the first storage byte).
* `HashMap` values are association lists; iteration order is fixed to list
  order (one resolution of Rust's unspecified hash iteration order), and
  `insert` is modelled by `upsert`, which overwrites in place or appends.
* Bytes are `Nat` values `< 256`; `char` is Lean `Char` (both are Unicode
  scalar values).
* The `Count` type is Rust `u32`; counts in the claims stay far below `2^32`,
  so they are modelled as `Nat`.  The decoder's guard constant
  `Count::min_value().count_zeros()` is the bit width `32`.
* `BinaryHeap<Reverse<HuffmanNode>>` is a list; `pop` takes the first node of
  minimal count (one resolution of the unspecified tie order), `push` conses.
-/

namespace Huff

/-- Association-list lookup, modelling `HashMap::get`. -/
def getA {α β : Type} [DecidableEq α] (k : α) : List (α × β) → Option β
  | [] => none
  | (a, b) :: t => if a = k then some b else getA k t

/-- Association-list insert-or-overwrite, modelling `HashMap::insert`. -/
def upsert {α β : Type} [DecidableEq α] (k : α) (v : β) :
    List (α × β) → List (α × β)
  | [] => [(k, v)]
  | (a, b) :: t => if a = k then (k, v) :: t else (a, b) :: upsert k v t

/-- `HashMap::extend`: insert every pair of `r` into `l`. -/
def extendA {α β : Type} [DecidableEq α] (l r : List (α × β)) : List (α × β) :=
  r.foldl (fun m p => upsert p.1 p.2 m) l

/-- The values of an association list. -/
def valsA {α β : Type} (m : List (α × β)) : List β := m.map Prod.snd

/-- The keys of an association list. -/
def keysA {α β : Type} (m : List (α × β)) : List α := m.map Prod.fst

/-- A Huffman code: an ordered list of bits, as stored in the crate's
`BitVec` (index 0 first). -/
abbrev Code := List Bool

/-- `enum HuffmanNode` from `lib.rs`. -/
inductive HuffmanNode : Type
  | leaf (count : Nat) (ch : Char)
  | interior (count : Nat) (map : List (Char × Code))
deriving DecidableEq, Repr

/-- The count component, used by the `Ord` instance of `HuffmanNode`
(which compares only counts). -/
def HuffmanNode.count : HuffmanNode → Nat
  | .leaf c _ => c
  | .interior c _ => c

/-- The code map of a node (`Leaf` carries none). -/
def HuffmanNode.codeMap : HuffmanNode → List (Char × Code)
  | .leaf _ _ => []
  | .interior _ m => m

/-- The characters covered by a node. -/
def HuffmanNode.chars : HuffmanNode → List Char
  | .leaf _ ch => [ch]
  | .interior _ m => keysA m

/-- Prepend bit `b` to every code of a map, modelling the
`for (_, code) in code.iter_mut() { code.insert(0, b); }` loops. -/
def prependAll (b : Bool) (m : List (Char × Code)) : List (Char × Code) :=
  m.map (fun p => (p.1, b :: p.2))

/-- `combine` from `lib.rs`: merge two Huffman nodes, updating codes. -/
def combine : HuffmanNode → HuffmanNode → HuffmanNode
  | .leaf lcount lch, .leaf rcount rch =>
      .interior (lcount + rcount) (upsert rch [true] (upsert lch [false] []))
  | .leaf lcount ch, .interior rcount code =>
      .interior (lcount + rcount) (upsert ch [false] (prependAll true code))
  | .interior lcount code, .leaf rcount rch =>
      .interior (lcount + rcount) (upsert rch [true] (prependAll false code))
  | .interior lcount lenc, .interior rcount renc =>
      .interior (lcount + rcount)
        (extendA (prependAll false lenc) (prependAll true renc))

/-- `BinaryHeap<Reverse<HuffmanNode>>::pop`: remove a node of least count.
Ties go to the earliest listed node (the Rust tie order is unspecified). -/
def popMin : List HuffmanNode → Option (HuffmanNode × List HuffmanNode)
  | [] => none
  | x :: xs =>
    match popMin xs with
    | none => some (x, [])
    | some (y, ys) =>
      if x.count ≤ y.count then some (x, xs) else some (y, x :: ys)

/-- The `while huffman_heap.len() > 1` merge loop of
`char_count_to_huffman_encoding`.  Each iteration pops two nodes, combines
them and pushes the result, shrinking the heap by one; `fuel` is set to the
initial heap size, which bounds the iteration count. -/
def huffLoop : Nat → List HuffmanNode → List HuffmanNode
  | 0, h => h
  | fuel + 1, h =>
    if h.length ≤ 1 then h
    else
      match popMin h with
      | none => h
      | some (n1, h1) =>
        match popMin h1 with
        | none => h
        | some (n2, h2) => huffLoop fuel (combine n1 n2 :: h2)

/-- The heap seeded with one `Leaf` per `(character, count)` pair (the
`fold`/`push` in `char_count_to_huffman_encoding`). -/
def initHeap (charCount : List (Char × Nat)) : List HuffmanNode :=
  charCount.foldl (fun h p => HuffmanNode.leaf p.2 p.1 :: h) []

/-- `char_count_to_huffman_encoding` from `lib.rs`.  Returns `none` exactly
when the Rust code would panic on `pop().unwrap()` (empty input map). -/
def charCountToHuffmanEncoding (charCount : List (Char × Nat)) :
    Option (List (Char × Code)) :=
  match popMin (huffLoop (initHeap charCount).length (initHeap charCount)) with
  | some (.interior _ enc, _) => some enc
  | some (.leaf _ ch, _) => some [(ch, [])]
  | none => none

/-- Splits a text into lines the way `BufRead::lines` does for `\n`-terminated
input: each yielded line has its terminator stripped, and input ending without
a terminator still yields its last partial line. -/
def linesAux : List Char → List Char → List (List Char)
  | [], cur => if cur.isEmpty then [] else [cur]
  | c :: rest, cur =>
    if c = '\n' then cur :: linesAux rest [] else linesAux rest (cur ++ [c])

/-- `r.lines()` over the source text. -/
def linesOf (text : List Char) : List (List Char) := linesAux text []

/-- One `*freq += 1` step after `entry(ch).or_insert(0)`. -/
def bumpChar (m : List (Char × Nat)) (c : Char) : List (Char × Nat) :=
  upsert c ((getA c m).getD 0 + 1) m

/-- `count_chars` from `lib.rs`: counts every character of every line, then
inserts an entry for `'\n'` holding the final `enumerate` index. -/
def countChars (text : List Char) : List (Char × Nat) :=
  let lines := linesOf text
  let st := lines.enum.foldl
    (fun (p : List (Char × Nat) × Nat) (il : Nat × List Char) =>
      (il.2.foldl bumpChar p.1, il.1)) ([], 0)
  upsert '\n' st.2 st.1

/-- `char::encode_utf8`: the UTF-8 bytes of a scalar value. -/
def utf8EncodeChar (c : Char) : List Nat :=
  let n := c.toNat
  if n < 0x80 then [n]
  else if n < 0x800 then [0xC0 + n / 64, 0x80 + n % 64]
  else if n < 0x10000 then
    [0xE0 + n / 4096, 0x80 + n / 64 % 64, 0x80 + n % 64]
  else
    [0xF0 + n / 0x40000, 0x80 + n / 0x1000 % 64, 0x80 + n / 64 % 64,
      0x80 + n % 64]

/-- The ASCII rendering of a code: one `'0'`/`'1'` byte per bit. -/
def digitBytes (code : Code) : List Nat :=
  code.map (fun b => if b then 49 else 48)

/-- The characters the digit bytes of a code decode to. -/
def digitChars (code : Code) : List Char :=
  code.map (fun b => if b then '1' else '0')

/-- One header line of `serialize_huffman_encoding`: character bytes, then
digit bytes, then the terminator byte. -/
def entryBytes (p : Char × Code) : List Nat :=
  utf8EncodeChar p.1 ++ digitBytes p.2 ++ [10]

/-- `serialize_huffman_encoding` from `lib.rs`: entries sorted by character,
one line each. -/
def serializeHuffmanEncoding (encoding : List (Char × Code)) : List Nat :=
  ((encoding.insertionSort (fun a b => a.1 ≤ b.1)).map entryBytes).flatten

/-- Pack a bit into place: `bitsToByte [b0,…,b7]` is the byte whose least
significant bit is `b0` (the `LittleEndian` cursor layout). -/
def bitsToByte (bs : List Bool) : Nat :=
  bs.foldr (fun b acc => 2 * acc + (if b then 1 else 0)) 0

/-- Serialize a bit buffer to bytes, 8 bits per byte least-significant-first;
a trailing group shorter than 8 bits becomes a final zero-padded byte
(`Vec<u8>::from(buffer)`). -/
def bitsToBytes : List Bool → List Nat
  | [] => []
  | b0 :: b1 :: b2 :: b3 :: b4 :: b5 :: b6 :: b7 :: rest =>
      bitsToByte [b0, b1, b2, b3, b4, b5, b6, b7] :: bitsToBytes rest
  | short => [bitsToByte short]

/-- The code bits a single line contributes: each character's code in order,
then the `'\n'` code (`encode` re-appends the stripped terminator).  `none`
models a panicking `encoding.get(&character).unwrap()`. -/
def lineBits (tbl : List (Char × Code)) (nl : Code) (line : List Char) :
    Option (List Bool) :=
  (line.foldl (fun acc c => acc.bind fun bs => (getA c tbl).map (bs ++ ·))
    (some [])).map (· ++ nl)

/-- The encoder's working buffer at the `if buffer.len() > 8` check: the
carried buffer plus the whole current line's bits. -/
def bufAtFlushCheck (tbl : List (Char × Code)) (nl : Code)
    (carried : List Bool) (line : List Char) : Option (List Bool) :=
  (lineBits tbl nl line).map (carried ++ ·)

/-- The flush step of `encode`: if more than 8 bits are pending, write out the
byte-aligned part and keep the remainder (`split_off`). -/
def flushStep (buffer : List Bool) : List Nat × List Bool :=
  if 8 < buffer.length then
    let si := buffer.length - buffer.length % 8
    (bitsToBytes (buffer.take si), buffer.drop si)
  else ([], buffer)

/-- The body-emitting loop of `encode` over the lines of the rewound source. -/
def encodeBodyAux (tbl : List (Char × Code)) (nl : Code) :
    List (List Char) → List Bool → Option (List Nat)
  | [], buffer => some (bitsToBytes buffer)
  | line :: rest, buffer =>
    (bufAtFlushCheck tbl nl buffer line).bind fun buf =>
      let fl := flushStep buf
      (encodeBodyAux tbl nl rest fl.2).map (fl.1 ++ ·)

/-- The body bytes `encode` writes after the header.  `none` models a panic of
one of the `unwrap`ed code-table lookups. -/
def encodeBody (tbl : List (Char × Code)) (lines : List (List Char)) :
    Option (List Nat) :=
  (getA '\n' tbl).bind fun nl => encodeBodyAux tbl nl lines []

/-- `encode` from `lib.rs`: header, blank separator line, then body. -/
def encode (text : List Char) : Option (List Nat) :=
  (charCountToHuffmanEncoding (countChars text)).bind fun tbl =>
    (encodeBody tbl (linesOf text)).map fun body =>
      serializeHuffmanEncoding tbl ++ [10, 10] ++ body

/-- Errors of `decode`: an I/O or UTF-8 failure, or a
`HuffmanEncodingError` carrying the offending bit pattern. -/
inductive DErr : Type
  | io
  | malformed (bitpattern : Code)
deriving DecidableEq, Repr

/-- Split a byte stream at the first `0x0A`, keeping it with the prefix
(`BufRead::read_line` reads up to and including the terminator). -/
def splitAtNl : List Nat → List Nat × List Nat
  | [] => ([], [])
  | b :: t =>
    if b = 10 then ([10], t)
    else
      let pr := splitAtNl t
      (b :: pr.1, pr.2)

/-- Decode one UTF-8 scalar value from a lead byte and the remaining bytes,
returning the character and the bytes left (mirroring `str` validation: no
continuation-byte leads, no overlongs, no surrogates, max `0x10FFFF`). -/
def utf8DecodeOne (b0 : Nat) (rest : List Nat) : Option (Char × List Nat) :=
  if b0 < 0x80 then some (Char.ofNat b0, rest)
  else if b0 < 0xC2 then none
  else if b0 < 0xE0 then
    match rest with
    | b1 :: rest2 =>
      if 0x80 ≤ b1 ∧ b1 < 0xC0 then
        some (Char.ofNat ((b0 - 0xC0) * 64 + (b1 - 0x80)), rest2)
      else none
    | [] => none
  else if b0 < 0xF0 then
    match rest with
    | b1 :: b2 :: rest2 =>
      if 0x80 ≤ b1 ∧ b1 < 0xC0 ∧ 0x80 ≤ b2 ∧ b2 < 0xC0 ∧
          (b0 = 0xE0 → 0xA0 ≤ b1) ∧
          ¬ (0xD800 ≤ (b0 - 0xE0) * 4096 + (b1 - 0x80) * 64 + (b2 - 0x80) ∧
             (b0 - 0xE0) * 4096 + (b1 - 0x80) * 64 + (b2 - 0x80) ≤ 0xDFFF) then
        some (Char.ofNat ((b0 - 0xE0) * 4096 + (b1 - 0x80) * 64 + (b2 - 0x80)),
          rest2)
      else none
    | _ => none
  else if b0 < 0xF5 then
    match rest with
    | b1 :: b2 :: b3 :: rest2 =>
      if 0x80 ≤ b1 ∧ b1 < 0xC0 ∧ 0x80 ≤ b2 ∧ b2 < 0xC0 ∧
          0x80 ≤ b3 ∧ b3 < 0xC0 ∧ (b0 = 0xF0 → 0x90 ≤ b1) ∧
          (b0 - 0xF0) * 0x40000 + (b1 - 0x80) * 0x1000 + (b2 - 0x80) * 64 +
            (b3 - 0x80) < 0x110000 then
        some (Char.ofNat ((b0 - 0xF0) * 0x40000 + (b1 - 0x80) * 0x1000 +
          (b2 - 0x80) * 64 + (b3 - 0x80)), rest2)
      else none
    | _ => none
  else none

/-- Decoding driver: one fuel unit per character.  Every character consumes at
least the lead byte, so fuel equal to the byte count always suffices. -/
def utf8DecodeAux : Nat → List Nat → Option (List Char)
  | _, [] => some []
  | 0, _ :: _ => none
  | fuel + 1, b0 :: rest =>
    match utf8DecodeOne b0 rest with
    | none => none
    | some p => (utf8DecodeAux fuel p.2).map (p.1 :: ·)

/-- Decode a UTF-8 byte sequence to characters; `none` on malformed input. -/
def utf8Decode (bs : List Nat) : Option (List Char) :=
  utf8DecodeAux bs.length bs

/-- `read_line` on the byte stream: one line (terminator included, decoded to
characters) and the remaining bytes; `none` on a UTF-8 error. -/
def readLine (bs : List Nat) : Option (List Char × List Nat) :=
  let pr := splitAtNl bs
  (utf8Decode pr.1).map (·, pr.2)

/-- The digit loop of `build_decoding_table`: `'0'`/`'1'` characters become
bits; any other character fails with the bits accumulated so far. -/
def parseDigits : List Char → Code → Except DErr Code
  | [], acc => .ok acc
  | c :: cs, acc =>
    if c = '0' then parseDigits cs (acc ++ [false])
    else if c = '1' then parseDigits cs (acc ++ [true])
    else .error (.malformed acc)

/-- `build_decoding_table` from `lib.rs`.  One fuel unit per loop iteration;
`none` means the fuel ran out (the Rust loop would still be running). -/
def buildDecodingTable (fuel : Nat) (bs : List Nat)
    (acc : List (Code × Char)) :
    Option (Except DErr (List (Code × Char) × List Nat)) :=
  match fuel with
  | 0 => none
  | f + 1 =>
    match readLine bs with
    | none => some (.error .io)
    | some (line, r1) =>
      match line.dropLast with
      | c :: ds =>
        match parseDigits ds [] with
        | .error e => some (.error e)
        | .ok code => buildDecodingTable f r1 (upsert code c acc)
      | [] =>
        match readLine r1 with
        | none => some (.error .io)
        | some (line2, r2) =>
          if line2 = ['\n'] then some (.ok (acc, r2))
          else
            match parseDigits line2.dropLast [] with
            | .error e => some (.error e)
            | .ok code => buildDecodingTable f r2 (upsert code '\n' acc)

/-- The 8 bits of a byte in the order the decoder's
reverse-then-pop dance consumes them: least significant bit first. -/
def byteBits (b : Nat) : List Bool :=
  [b.testBit 0, b.testBit 1, b.testBit 2, b.testBit 3,
   b.testBit 4, b.testBit 5, b.testBit 6, b.testBit 7]

/-- The body-decoding loop: push each bit onto the candidate, fail once the
candidate exceeds 32 bits (the `Count` bit width), emit and clear on a table
hit, and silently drop an unmatched tail at end of input. -/
def decBits (tbl : List (Code × Char)) :
    Code → List Bool → List Char → Except DErr (List Char)
  | _, [], acc => .ok acc
  | cand, bit :: rest, acc =>
    let cand' := cand ++ [bit]
    if 32 < cand'.length then .error (.malformed cand')
    else
      match getA cand' tbl with
      | some ch => decBits tbl [] rest (acc ++ [ch])
      | none => decBits tbl cand' rest acc

/-- Decode the body bytes to output bytes (each decoded character written as
its UTF-8 bytes). -/
def decBytes (tbl : List (Code × Char)) (bytes : List Nat) :
    Except DErr (List Nat) :=
  (decBits tbl [] (bytes.map byteBits).flatten []).map
    fun chars => (chars.map utf8EncodeChar).flatten

/-- `decode` from `lib.rs`: parse the header table, then decode the body.
`none` means the header loop is still running after `fuel` iterations. -/
def decode (fuel : Nat) (input : List Nat) :
    Option (Except DErr (List Nat)) :=
  match buildDecodingTable fuel input [] with
  | none => none
  | some (.error e) => some (.error e)
  | some (.ok (tbl, rest)) => some (decBytes tbl rest)

/-- `decode` diverges on this input: the header loop never finishes, however
much fuel it is given. -/
def decodeNeverReturns (input : List Nat) : Prop :=
  ∀ fuel, decode fuel input = none

/-- The inverse code-to-character view of a code table: the character of the
first entry carrying the given code. -/
def invGetA (code : Code) : List (Char × Code) → Option Char
  | [] => none
  | (c, d) :: t => if d = code then some c else invGetA code t

/-- Number of occurrences of a character in the body (the lines of the
text, terminators excluded). -/
def bodyOcc (c : Char) (lines : List (List Char)) : Nat :=
  (lines.map (List.count c)).sum

/-- Set-level no-code-is-a-prefix-of-another: any member that is a prefix of a
member is that member itself (so no member is a proper prefix of another). -/
def PrefFree (L : List Code) : Prop :=
  ∀ a ∈ L, ∀ b ∈ L, a <+: b → a = b

end Huff


namespace Huff

theorem getA_upsert_self {α β : Type} [DecidableEq α] (k : α) (v : β) :
    ∀ m : List (α × β), getA k (upsert k v m) = some v := by
  intro m
  induction m with
  | nil => simp [upsert, getA]
  | cons p t ih =>
    by_cases h : p.1 = k
    · simp [upsert, h, getA]
    · simpa [upsert, h, getA] using ih

theorem getA_upsert_ne {α β : Type} [DecidableEq α] {k k' : α} (v : β)
    (h : k' ≠ k) : ∀ m : List (α × β), getA k' (upsert k v m) = getA k' m := by
  intro m
  have h' : ¬ k = k' := fun e => h e.symm
  induction m with
  | nil => simp [upsert, getA, h']
  | cons p t ih =>
    by_cases hp : p.1 = k
    · simp [upsert, hp, getA, h']
    · simp [upsert, hp, getA, ih]

theorem getA_prependAll (b : Bool) (c : Char) :
    ∀ m : List (Char × Code), getA c (prependAll b m) = (getA c m).map (b :: ·) := by
  intro m
  induction m with
  | nil => simp [prependAll, getA]
  | cons p t ih =>
    by_cases h : p.1 = c
    · simp [prependAll, getA, h]
    · simpa [prependAll, getA, h] using ih

end Huff

namespace Huff

/-- C1: the claim `decode(encode(T)) == T` fails on the code.  For the text
`"aaa\n"` (printable characters and line terminators only) the encoder packs
the 4 body bits `1,1,1,0` into one byte whose 4 zero padding bits each match
the code `0` of `'\n'`, so decoding appends four spurious terminators: the
decoded bytes are `"aaa\n\n\n\n\n"`, not `"aaa\n"`. -/
theorem decode_encode_not_id_on_aaa :
    encode "aaa\n".toList = some [10, 48, 10, 97, 49, 10, 10, 10, 7] ∧
    decode 10 [10, 48, 10, 97, 49, 10, 10, 10, 7] =
      some (.ok [97, 97, 97, 10, 10, 10, 10, 10]) ∧
    ("aaa\n".toList.map utf8EncodeChar).flatten ≠
      [97, 97, 97, 10, 10, 10, 10, 10] :=
  ⟨rfl, rfl, by decide⟩

theorem buildDecodingTable_nil_eq_none :
    ∀ (fuel : Nat) (acc : List (Code × Char)),
      buildDecodingTable fuel [] acc = none := by
  intro fuel
  induction fuel with
  | zero => intro acc; rfl
  | succ f ih =>
    intro acc
    exact ih (upsert [] '\n' acc)

/-- C7: the claim that the header-parsing loop of `decode` terminates on every
finite input fails on the code.  On input that ends before the
two-terminator end-of-header marker — here the empty input — `read_line`
keeps returning an empty line that is not `"\n"`, the loop inserts an entry
for `'\n'` and retries forever: no amount of fuel makes `decode` return. -/
theorem decode_diverges_on_empty_input : decodeNeverReturns [] := by
  intro fuel
  simp [decode, buildDecodingTable_nil_eq_none]

/-- C5, counterexample: the claim predicts that merging a first-popped `Leaf`
with an `Interior` prepends bit `0` to the `Interior`'s codes and assigns the
`Leaf` the code `1`.  The code does the opposite: for
`combine(Leaf(1,'a'), Interior(1, {'b' ↦ 0}))` the entry of `'b'` becomes
`1,0` (bit `1` prepended), not the claimed `0,0`. -/
theorem combine_leaf_interior_claimed_bits_false :
    ¬ (∀ (lc : Nat) (ch : Char) (rc : Nat) (m : List (Char × Code))
        (c : Char) (code : Code), getA c m = some code →
        getA c (combine (.leaf lc ch) (.interior rc m)).codeMap =
          some (false :: code) ∧
        getA ch (combine (.leaf lc ch) (.interior rc m)).codeMap =
          some [true]) := by
  intro h
  have h1 := (h 1 'a' 1 [('b', [false])] 'b' [false] rfl).1
  exact absurd h1 (by decide)

/-- C5, amended: in the Leaf/Interior merge, bit `1` is prepended to every
existing code of the `Interior` when the `Leaf` was popped first (bit `0` when
the `Leaf` was popped second), and the `Leaf`'s character receives the 1-bit
code of the opposite value (`0` when popped first, `1` when popped second). -/
theorem combine_leaf_interior_bits :
    ∀ (lc rc : Nat) (ch : Char) (m : List (Char × Code)),
      (∀ c code, c ≠ ch → getA c m = some code →
        getA c (combine (.leaf lc ch) (.interior rc m)).codeMap =
          some (true :: code)) ∧
      getA ch (combine (.leaf lc ch) (.interior rc m)).codeMap = some [false] ∧
      (∀ c code, c ≠ ch → getA c m = some code →
        getA c (combine (.interior lc m) (.leaf rc ch)).codeMap =
          some (false :: code)) ∧
      getA ch (combine (.interior lc m) (.leaf rc ch)).codeMap = some [true] := by
  intro lc rc ch m
  refine ⟨fun c code hne hc => ?_, ?_, fun c code hne hc => ?_, ?_⟩
  · rw [combine, HuffmanNode.codeMap, getA_upsert_ne _ hne, getA_prependAll, hc]
    rfl
  · rw [combine, HuffmanNode.codeMap, getA_upsert_self]
  · rw [combine, HuffmanNode.codeMap, getA_upsert_ne _ hne, getA_prependAll, hc]
    rfl
  · rw [combine, HuffmanNode.codeMap, getA_upsert_self]

theorem combine_leaf_interior_bits_witness :
    getA 'b' (combine (.leaf 1 'a') (.interior 2 [('b', [true])])).codeMap =
      some [true, true] :=
  (combine_leaf_interior_bits 1 2 'a' [('b', [true])]).1 'b' [true]
    (by decide) rfl

/-- C4, counterexample: the claim that the `'\n'` entry of the frequency
table equals the number of lines consumed fails on the code: `count_chars`
stores the last `enumerate` index, which is one less.  For the one-line text
`"a"` the stored value is `0`, not `1`. -/
theorem countChars_newline_entry_not_line_count :
    ¬ (∀ text : List Char,
        getA '\n' (countChars text) = some (linesOf text).length) := by
  intro h
  exact absurd (h ['a']) (by decide)

end Huff

namespace Huff

theorem getA_bumpChar (m : List (Char × Nat)) (c c' : Char) :
    getA c' (bumpChar m c) =
      if c' = c then some ((getA c m).getD 0 + 1) else getA c' m := by
  by_cases h : c' = c
  · subst h; simp [bumpChar, getA_upsert_self]
  · simp [bumpChar, h, getA_upsert_ne _ h]

theorem getA_foldl_bump (c : Char) :
    ∀ (l : List Char) (m : List (Char × Nat)),
      getA c (l.foldl bumpChar m) =
        if l.count c = 0 then getA c m
        else some ((getA c m).getD 0 + l.count c) := by
  intro l
  induction l with
  | nil => intro m; simp
  | cons a t ih =>
    intro m
    rw [List.foldl_cons, ih]
    by_cases h : c = a
    · subst h
      have hb : getA c (bumpChar m c) = some ((getA c m).getD 0 + 1) := by
        simp [bumpChar, getA_upsert_self]
      by_cases h0 : t.count c = 0 <;> simp [h0, hb, List.count_cons] <;> omega
    · have hb : getA c (bumpChar m a) = getA c m := by
        simp [bumpChar, getA_upsert_ne _ h]
      simp [hb, List.count_cons, h]

theorem getA_linesFold (c : Char) :
    ∀ (lines : List (List Char)) (m : List (Char × Nat)),
      getA c (lines.foldl (fun m line => line.foldl bumpChar m) m) =
        if bodyOcc c lines = 0 then getA c m
        else some ((getA c m).getD 0 + bodyOcc c lines) := by
  intro lines
  induction lines with
  | nil => intro m; simp [bodyOcc]
  | cons l ls ih =>
    intro m
    rw [List.foldl_cons, ih]
    have hocc : bodyOcc c (l :: ls) = l.count c + bodyOcc c ls := by
      simp [bodyOcc]
    by_cases h0 : l.count c = 0
    · simp [hocc, h0, getA_foldl_bump c l m]
    · by_cases h1 : bodyOcc c ls = 0 <;>
        simp [hocc, h0, h1, getA_foldl_bump c l m] <;> omega

theorem enumFoldCount :
    ∀ (lines : List (List Char)) (i : Nat) (m : List (Char × Nat)) (k : Nat),
      (List.enumFrom i lines).foldl
        (fun (p : List (Char × Nat) × Nat) (il : Nat × List Char) =>
          (il.2.foldl bumpChar p.1, il.1)) (m, k) =
        (lines.foldl (fun m line => line.foldl bumpChar m) m,
         if lines.isEmpty then k else i + lines.length - 1) := by
  intro lines
  induction lines with
  | nil => intro i m k; simp
  | cons l ls ih =>
    intro i m k
    rw [List.enumFrom_cons, List.foldl_cons, ih]
    by_cases h : ls.isEmpty
    · have : ls = [] := List.isEmpty_iff.mp h
      subst this
      simp
    · have h2 : i + 1 + ls.length - 1 = i + (ls.length + 1) - 1 := by omega
      simp [h, h2]

theorem countChars_getA (text : List Char) (c : Char) (hc : c ≠ '\n') :
    getA c (countChars text) =
      (if bodyOcc c (linesOf text) = 0 then none
       else some (bodyOcc c (linesOf text))) ∧
    getA '\n' (countChars text) =
      some (if (linesOf text).length = 0 then 0
            else (linesOf text).length - 1) := by
  unfold countChars
  simp only [List.enum]
  rw [enumFoldCount (linesOf text) 0 [] 0]
  constructor
  · rw [getA_upsert_ne _ hc, getA_linesFold]
    simp [getA]
  · rw [getA_upsert_self]
    by_cases h : (linesOf text).isEmpty
    · have : linesOf text = [] := List.isEmpty_iff.mp h
      simp [this]
    · have hne : linesOf text ≠ [] := fun e => h (by simp [e])
      simp [h, List.length_eq_zero, hne]

/-- C4, amended: every character of the body maps to its exact number of
occurrences (entries exist exactly for occurring characters), but the
`'\n'` entry holds the final zero-based `enumerate` index: one less than the
number of lines consumed when at least one line was read, and `0` otherwise. -/
theorem countChars_entries (text : List Char) (c : Char) (hc : c ≠ '\n') :
    getA c (countChars text) =
      (if bodyOcc c (linesOf text) = 0 then none
       else some (bodyOcc c (linesOf text))) ∧
    getA '\n' (countChars text) =
      some (if (linesOf text).length = 0 then 0
            else (linesOf text).length - 1) :=
  countChars_getA text c hc

theorem countChars_entries_witness :
    (getA 'a' (countChars "ab\na".toList) =
      (if bodyOcc 'a' (linesOf "ab\na".toList) = 0 then none
       else some (bodyOcc 'a' (linesOf "ab\na".toList)))) ∧
    getA '\n' (countChars "ab\na".toList) =
      some (if (linesOf "ab\na".toList).length = 0 then 0
            else (linesOf "ab\na".toList).length - 1) :=
  countChars_entries "ab\na".toList 'a' (by decide)

end Huff

namespace Huff

/-- C8, counterexample: the claim that the encoder's working bit buffer holds
at most one byte's worth of pending bits fails on the code: the buffer is only
flushed after a whole line, so at the flush check it holds all of the current
line's code bits.  A single line of twelve `'a'`s under 1-bit codes puts 13
bits in the buffer. -/
theorem encode_buffer_not_byte_bounded :
    ¬ (∀ (tbl : List (Char × Code)) (nl : Code) (carried : List Bool)
        (line : List Char) (buf : List Bool),
        bufAtFlushCheck tbl nl carried line = some buf → buf.length ≤ 8) := by
  intro h
  have h1 := h [('a', [true]), ('\n', [false])] [false] []
    (List.replicate 12 'a') (List.replicate 12 true ++ [false]) (by decide)
  exact absurd h1 (by decide)

theorem flushStep_keep_le_8 (buffer : List Bool) :
    ((flushStep buffer).2).length ≤ 8 := by
  by_cases h : 8 < buffer.length <;> simp [flushStep, h] <;> omega

theorem decBits_error_len (tbl : List (Code × Char)) :
    ∀ (bits : List Bool) (cand : Code) (acc : List Char) (pat : Code),
      cand.length ≤ 32 →
      decBits tbl cand bits acc = .error (.malformed pat) →
      pat.length ≤ 33 := by
  intro bits
  induction bits with
  | nil => intro cand acc pat _ h; simp [decBits] at h
  | cons b rest ih =>
    intro cand acc pat hc h
    simp only [decBits] at h
    by_cases h32 : 32 < (cand ++ [b]).length
    · simp only [h32, if_true] at h
      have : cand ++ [b] = pat := by
        have := h
        simp at this
        exact this
      subst this
      simp
      omega
    · simp only [h32, if_false] at h
      cases hg : getA (cand ++ [b]) tbl with
      | some ch =>
        rw [hg] at h
        exact ih [] _ _ (by simp) h
      | none =>
        rw [hg] at h
        refine ih (cand ++ [b]) _ _ ?_ h
        simp at h32 ⊢
        omega

/-- C8, amended: the bit buffers are bounded at the code's own granularity:
the buffer the encoder carries from one line iteration to the next (the
`split_off` remainder) never exceeds 8 bits, and the decoder's in-flight
candidate (reported in a runaway error) never exceeds 33 bits, one past the
32-bit `Count` width.  Within a single line, however, the encoder's buffer
grows with the line's encoded length (see the counterexample). -/
theorem encode_decode_buffers_bounded :
    (∀ buffer : List Bool, ((flushStep buffer).2).length ≤ 8) ∧
    (∀ (tbl : List (Code × Char)) (bytes : List Nat) (pat : Code),
      decBytes tbl bytes = .error (.malformed pat) → pat.length ≤ 33) := by
  refine ⟨flushStep_keep_le_8, fun tbl bytes pat h => ?_⟩
  unfold decBytes at h
  cases hd : decBits tbl [] ((bytes.map byteBits).flatten) [] with
  | ok v => rw [hd] at h; simp [Except.map] at h
  | error e =>
    rw [hd] at h
    simp [Except.map] at h
    subst h
    exact decBits_error_len tbl _ [] [] pat (by simp) hd

theorem encode_decode_buffers_bounded_witness :
    ((flushStep (List.replicate 12 true)).2).length ≤ 8 ∧
    (List.replicate 33 false : Code).length ≤ 33 :=
  ⟨encode_decode_buffers_bounded.1 _,
   encode_decode_buffers_bounded.2 [] [0, 0, 0, 0, 0]
     (List.replicate 33 false) rfl⟩

end Huff

namespace Huff

theorem decBits_no_match_error (tbl : List (Code × Char)) :
    ∀ (bits : List Bool) (cand : Code) (acc : List Char),
      cand.length ≤ 32 →
      (∀ p ∈ bits.inits, p ≠ [] → (cand ++ p).length ≤ 32 →
        getA (cand ++ p) tbl = none) →
      33 ≤ cand.length + bits.length →
      decBits tbl cand bits acc =
        .error (.malformed (cand ++ bits.take (33 - cand.length))) := by
  intro bits
  induction bits with
  | nil =>
    intro cand acc hc _ hlen
    simp at hlen
    omega
  | cons b rest ih =>
    intro cand acc hc hno hlen
    simp only [decBits]
    by_cases h32 : 32 < (cand ++ [b]).length
    · simp only [h32, if_true]
      have hc32 : cand.length = 32 := by simp at h32; omega
      have ht : (33 - cand.length) = 1 := by omega
      rw [ht]
      all_goals simp [List.take_succ_cons]
    · simp only [h32, if_false]
      have hb : getA (cand ++ [b]) tbl = none := by
        refine hno [b] ?_ (by simp) (by simp at h32 ⊢; omega)
        simp [List.mem_inits]
      rw [hb]
      have hlen' : (cand ++ [b]).length ≤ 32 := by simp at h32 ⊢; omega
      have hno' : ∀ p ∈ rest.inits, p ≠ [] →
          ((cand ++ [b]) ++ p).length ≤ 32 →
          getA ((cand ++ [b]) ++ p) tbl = none := by
        intro p hp hpne hplen
        have hmem : (b :: p) ∈ (b :: rest).inits := by
          rw [List.mem_inits] at hp ⊢
          obtain ⟨t, ht2⟩ := hp
          exact ⟨t, by rw [List.cons_append, ht2]⟩
        have := hno (b :: p) hmem (by simp) (by simpa [List.append_assoc] using hplen)
        simpa [List.append_assoc] using this
      have harith : 33 ≤ (cand ++ [b]).length + rest.length := by
        simp at hlen ⊢; omega
      have := ih (cand ++ [b]) (acc) hlen' hno' harith
      rw [this]
      have hstep : 33 - cand.length = (33 - (cand ++ [b]).length) + 1 := by
        simp at h32 ⊢; omega
      rw [hstep]
      simp [List.take_succ_cons, List.append_assoc]

/-- C6: during body decoding, once the candidate buffer is longer than the
32-bit `Count` width without any table hit, `decode`'s body loop returns a
malformed-stream error carrying the offending 33-bit pattern (it neither
hangs nor panics): for any table and byte stream at least 33 bits long in
which no nonempty bit-stream prefix of length ≤ 32 matches a table entry,
the result is exactly that error. -/
theorem decode_body_runaway_error (tbl : List (Code × Char)) (bytes : List Nat)
    (h1 : ∀ p ∈ ((bytes.map byteBits).flatten).inits, p ≠ [] →
      p.length ≤ 32 → getA p tbl = none)
    (h2 : 33 ≤ ((bytes.map byteBits).flatten).length) :
    decBytes tbl bytes =
      .error (.malformed (((bytes.map byteBits).flatten).take 33)) := by
  unfold decBytes
  have := decBits_no_match_error tbl ((bytes.map byteBits).flatten) [] []
    (by simp) (by simpa using h1) (by simpa using h2)
  rw [this]
  rfl

theorem decode_body_runaway_error_witness :
    decBytes [(List.replicate 34 true, 'x')] [0, 0, 0, 0, 0] =
      .error (.malformed
        ((([0, 0, 0, 0, 0].map byteBits).flatten).take 33)) :=
  decode_body_runaway_error [(List.replicate 34 true, 'x')] [0, 0, 0, 0, 0]
    (by decide) (by decide)

end Huff

namespace Huff

theorem prefFree_of_mem_imp (L M : List Code)
    (hsub : ∀ x ∈ L, x ∈ M) (h : PrefFree M) : PrefFree L :=
  fun a ha b hb hab => h a (hsub a ha) b (hsub b hb) hab

theorem prefFree_nil_singleton : PrefFree [[]] := by
  intro a ha b hb _
  simp at ha hb
  rw [ha, hb]

theorem valsA_cons {α β : Type} (p : α × β) (l : List (α × β)) :
    valsA (p :: l) = p.2 :: valsA l := rfl

theorem mem_valsA_upsert {α β : Type} [DecidableEq α] {x : β} (k : α) (v : β) :
    ∀ m : List (α × β), x ∈ valsA (upsert k v m) → x = v ∨ x ∈ valsA m := by
  intro m
  induction m with
  | nil => intro hx; simp [upsert, valsA] at hx; exact Or.inl hx
  | cons p t ih =>
    obtain ⟨a, b⟩ := p
    intro hx
    by_cases h : a = k
    · rw [upsert, if_pos h, valsA_cons] at hx
      rcases List.mem_cons.mp hx with rfl | hx1
      · exact Or.inl rfl
      · exact Or.inr (by rw [valsA_cons]; exact List.mem_cons_of_mem _ hx1)
    · rw [upsert, if_neg h, valsA_cons] at hx
      rcases List.mem_cons.mp hx with rfl | hx1
      · exact Or.inr (by rw [valsA_cons]; exact List.mem_cons_self _ _)
      · rcases ih hx1 with h1 | h1
        · exact Or.inl h1
        · exact Or.inr (by rw [valsA_cons]; exact List.mem_cons_of_mem _ h1)

theorem mem_valsA_extendA {α β : Type} [DecidableEq α] {x : β} :
    ∀ (r l : List (α × β)), x ∈ valsA (extendA l r) →
      x ∈ valsA l ∨ x ∈ valsA r := by
  intro r
  induction r with
  | nil => intro l h; exact Or.inl h
  | cons p t ih =>
    intro l h
    rw [extendA, List.foldl_cons] at h
    rcases ih (upsert p.1 p.2 l) h with h1 | h1
    · rcases mem_valsA_upsert p.1 p.2 l h1 with rfl | h2
      · right; rw [valsA_cons]; exact List.mem_cons_self _ _
      · exact Or.inl h2
    · right; rw [valsA_cons]; exact List.mem_cons_of_mem _ h1

theorem valsA_prependAll (b : Bool) (m : List (Char × Code)) :
    valsA (prependAll b m) = (valsA m).map (b :: ·) := by
  simp [valsA, prependAll]

theorem prefFree_two_branch {S T : List Code} {b0 b1 : Bool}
    (hS : PrefFree S) (hT : PrefFree T) (hne : b0 ≠ b1) :
    PrefFree (S.map (b0 :: ·) ++ T.map (b1 :: ·)) := by
  intro a ha b hb hab
  simp at ha hb
  rcases ha with ⟨s, hs, rfl⟩ | ⟨s, hs, rfl⟩ <;>
    rcases hb with ⟨u, hu, rfl⟩ | ⟨u, hu, rfl⟩
  · rw [List.cons_prefix_cons] at hab
    rw [hS s hs u hu hab.2]
  · rw [List.cons_prefix_cons] at hab
    exact absurd hab.1 hne
  · rw [List.cons_prefix_cons] at hab
    exact absurd hab.1.symm hne
  · rw [List.cons_prefix_cons] at hab
    rw [hT s hs u hu hab.2]

theorem combine_prefFree {a b : HuffmanNode}
    (ha : PrefFree (valsA a.codeMap)) (hb : PrefFree (valsA b.codeMap)) :
    PrefFree (valsA (combine a b).codeMap) := by
  have hpf2 : ∀ {S T : List Code}, PrefFree S → PrefFree T →
      PrefFree (S.map (false :: ·) ++ T.map (true :: ·)) :=
    fun hS hT => prefFree_two_branch hS hT (by simp)
  cases a with
  | leaf lc lch =>
    cases b with
    | leaf rc rch =>
      refine prefFree_of_mem_imp _ (([[]] : List Code).map (false :: ·) ++
        ([[]] : List Code).map (true :: ·)) ?_
        (hpf2 prefFree_nil_singleton prefFree_nil_singleton)
      intro x hx
      rcases mem_valsA_upsert rch [true] _ hx with rfl | hx1
      · simp
      · rcases mem_valsA_upsert lch [false] _ hx1 with rfl | hx2
        · simp
        · simp [valsA] at hx2
    | interior rc m =>
      refine prefFree_of_mem_imp _ (([[]] : List Code).map (false :: ·) ++
        (valsA m).map (true :: ·)) ?_ (hpf2 prefFree_nil_singleton hb)
      intro x hx
      rcases mem_valsA_upsert lch [false] _ hx with rfl | hx1
      · simp
      · rw [valsA_prependAll] at hx1
        exact List.mem_append.mpr (Or.inr hx1)
  | interior lc m =>
    cases b with
    | leaf rc rch =>
      refine prefFree_of_mem_imp _ ((valsA m).map (false :: ·) ++
        ([[]] : List Code).map (true :: ·)) ?_ (hpf2 ha prefFree_nil_singleton)
      intro x hx
      rcases mem_valsA_upsert rch [true] _ hx with rfl | hx1
      · simp
      · rw [valsA_prependAll] at hx1
        exact List.mem_append.mpr (Or.inl hx1)
    | interior rc m2 =>
      refine prefFree_of_mem_imp _ ((valsA m).map (false :: ·) ++
        (valsA m2).map (true :: ·)) ?_ (hpf2 ha hb)
      intro x hx
      rcases mem_valsA_extendA _ _ hx with hx1 | hx1
      · rw [valsA_prependAll] at hx1
        exact List.mem_append.mpr (Or.inl hx1)
      · rw [valsA_prependAll] at hx1
        exact List.mem_append.mpr (Or.inr hx1)

theorem popMin_some_mem :
    ∀ {h : List HuffmanNode} {x : HuffmanNode} {h' : List HuffmanNode},
      popMin h = some (x, h') → x ∈ h ∧ ∀ y ∈ h', y ∈ h := by
  intro h
  induction h with
  | nil => intro x h' hp; simp [popMin] at hp
  | cons a t ih =>
    intro x h' hp
    rw [popMin] at hp
    cases hpt : popMin t with
    | none =>
      rw [hpt] at hp
      simp at hp
      obtain ⟨rfl, rfl⟩ := hp
      exact ⟨by simp, by simp⟩
    | some yp =>
      obtain ⟨y, ys⟩ := yp
      rw [hpt] at hp
      by_cases hc : a.count ≤ y.count
      · simp [hc] at hp
        obtain ⟨rfl, rfl⟩ := hp
        exact ⟨by simp, fun z hz => by simp [hz]⟩
      · simp [hc] at hp
        obtain ⟨rfl, rfl⟩ := hp
        obtain ⟨hy, hys⟩ := ih hpt
        refine ⟨by simp [hy], fun z hz => ?_⟩
        rcases List.mem_cons.mp hz with rfl | hz1
        · simp
        · simp [hys z hz1]

theorem huffLoop_prefFree :
    ∀ (fuel : Nat) (h : List HuffmanNode),
      (∀ n ∈ h, PrefFree (valsA n.codeMap)) →
      ∀ n ∈ huffLoop fuel h, PrefFree (valsA n.codeMap) := by
  intro fuel
  induction fuel with
  | zero => intro h hinv; exact hinv
  | succ f ih =>
    intro h hinv
    rw [huffLoop]
    split
    · exact hinv
    · split
      · exact hinv
      · split
        · exact hinv
        · rename_i x1 n1 h1 heq1 x2 n2 h2 heq2
          obtain ⟨hn1, hh1⟩ := popMin_some_mem heq1
          obtain ⟨hn2, hh2⟩ := popMin_some_mem heq2
          refine ih (combine n1 n2 :: h2) ?_
          intro n hn
          rcases List.mem_cons.mp hn with rfl | hn'
          · exact combine_prefFree (hinv n1 hn1) (hinv n2 (hh1 n2 hn2))
          · exact hinv n (hh1 n (hh2 n hn'))

theorem foldl_leaf_mem :
    ∀ (cc : List (Char × Nat)) (l : List HuffmanNode) (n : HuffmanNode),
      n ∈ cc.foldl (fun h p => HuffmanNode.leaf p.2 p.1 :: h) l →
      (∃ p : Char × Nat, n = .leaf p.2 p.1) ∨ n ∈ l := by
  intro cc
  induction cc with
  | nil => intro l n hn; exact Or.inr hn
  | cons p t ih =>
    intro l n hn
    rw [List.foldl_cons] at hn
    rcases ih _ n hn with h1 | h1
    · exact Or.inl h1
    · rcases List.mem_cons.mp h1 with rfl | h2
      · exact Or.inl ⟨p, rfl⟩
      · exact Or.inr h2

/-- C2: for every frequency table with at least two distinct symbols, the code
table built by `char_count_to_huffman_encoding` is prefix-free: any code that
is a prefix of another code in the table equals it, so no code is a proper
prefix of another.  The invariant is preserved by every `combine` step. -/
theorem huffman_table_prefFree (cc : List (Char × Nat)) (t : List (Char × Code))
    (hcard : 2 ≤ cc.length) (hnd : (keysA cc).Nodup)
    (h : charCountToHuffmanEncoding cc = some t) : PrefFree (valsA t) := by
  unfold charCountToHuffmanEncoding at h
  have hinv : ∀ n ∈ initHeap cc, PrefFree (valsA n.codeMap) := by
    intro n hn
    rcases foldl_leaf_mem cc [] n hn with ⟨p, rfl⟩ | h1
    · intro a ha; simp [HuffmanNode.codeMap, valsA] at ha
    · simp at h1
  have hloop := huffLoop_prefFree (initHeap cc).length (initHeap cc) hinv
  cases hp : popMin (huffLoop (initHeap cc).length (initHeap cc)) with
  | none => rw [hp] at h; simp at h
  | some pr =>
    obtain ⟨node, rest⟩ := pr
    have hmem := (popMin_some_mem hp).1
    have hnode := hloop node hmem
    cases node with
    | interior c m =>
      rw [hp] at h
      simp at h
      rw [← h]
      exact hnode
    | leaf c ch =>
      rw [hp] at h
      simp at h
      rw [← h]
      exact prefFree_of_mem_imp _ [[]] (by intro x hx; simpa [valsA] using hx)
        prefFree_nil_singleton

theorem huffman_table_prefFree_witness :
    PrefFree (valsA [('a', [false]), ('b', [true])]) :=
  huffman_table_prefFree [('a', 1), ('b', 2)] [('a', [false]), ('b', [true])]
    (by decide) (by decide) rfl

end Huff

namespace Huff

theorem char_toNat_valid (c : Char) :
    c.toNat < 0xd800 ∨ (0xdfff < c.toNat ∧ c.toNat < 0x110000) := c.valid

theorem utf8DecodeOne_length {b0 : Nat} {rest : List Nat} {c : Char}
    {rest2 : List Nat} (h : utf8DecodeOne b0 rest = some (c, rest2)) :
    rest2.length ≤ rest.length := by
  unfold utf8DecodeOne at h
  repeat' split at h
  all_goals simp_all
  all_goals omega

theorem utf8DecodeAux_irrel :
    ∀ (f1 f2 : Nat) (bs : List Nat), bs.length ≤ f1 → bs.length ≤ f2 →
      utf8DecodeAux f1 bs = utf8DecodeAux f2 bs := by
  intro f1
  induction f1 with
  | zero =>
    intro f2 bs h1 _
    have : bs = [] := List.length_eq_zero.mp (Nat.le_zero.mp h1)
    subst this
    cases f2 <;> rfl
  | succ g1 ih =>
    intro f2 bs h1 h2
    cases bs with
    | nil => cases f2 <;> rfl
    | cons b0 rest =>
      cases f2 with
      | zero => simp at h2
      | succ g2 =>
        show (match utf8DecodeOne b0 rest with
          | none => none
          | some p => (utf8DecodeAux g1 p.2).map (p.1 :: ·)) =
          (match utf8DecodeOne b0 rest with
          | none => none
          | some p => (utf8DecodeAux g2 p.2).map (p.1 :: ·))
        cases hone : utf8DecodeOne b0 rest with
        | none => rfl
        | some p =>
          have hlen := utf8DecodeOne_length
            (show utf8DecodeOne b0 rest = some (p.1, p.2) by rw [hone])
          simp only []
          rw [ih g2 p.2 (by simp at h1; omega) (by simp at h2; omega)]

theorem utf8Decode_nil : utf8Decode [] = some [] := rfl

theorem utf8DecodeOne_encode (c : Char) (bs : List Nat) :
    ∃ (b0 : Nat) (tl : List Nat), utf8EncodeChar c = b0 :: tl ∧
      utf8DecodeOne b0 (tl ++ bs) = some (c, bs) := by
  have hval := char_toNat_valid c
  have hofn := Char.ofNat_toNat c
  set n := c.toNat with hn
  by_cases h1 : n < 0x80
  · refine ⟨n, [], by rw [utf8EncodeChar, ← hn, if_pos h1], ?_⟩
    unfold utf8DecodeOne
    rw [if_pos h1, List.nil_append, hofn]
  · by_cases h2 : n < 0x800
    · have d1 : ¬ (0xC0 + n / 64 < 0x80) := by omega
      have d2 : ¬ (0xC0 + n / 64 < 0xC2) := by omega
      have d3 : 0xC0 + n / 64 < 0xE0 := by omega
      have d4 : 0x80 ≤ 0x80 + n % 64 ∧ 0x80 + n % 64 < 0xC0 := by omega
      have dv : (0xC0 + n / 64 - 0xC0) * 64 + (0x80 + n % 64 - 0x80) = n := by
        omega
      refine ⟨0xC0 + n / 64, [0x80 + n % 64],
        by rw [utf8EncodeChar, ← hn, if_neg h1, if_pos h2], ?_⟩
      unfold utf8DecodeOne
      rw [if_neg d1, if_neg d2, if_pos d3]
      rw [List.cons_append, List.nil_append]
      dsimp only
      rw [if_pos d4, dv, hofn]
    · by_cases h3 : n < 0x10000
      · have d1 : ¬ (0xE0 + n / 4096 < 0x80) := by omega
        have d2 : ¬ (0xE0 + n / 4096 < 0xC2) := by omega
        have d3 : ¬ (0xE0 + n / 4096 < 0xE0) := by omega
        have d4 : 0xE0 + n / 4096 < 0xF0 := by omega
        have dv : (0xE0 + n / 4096 - 0xE0) * 4096 +
            (0x80 + n / 64 % 64 - 0x80) * 64 + (0x80 + n % 64 - 0x80) = n := by
          omega
        have dc : 0x80 ≤ 0x80 + n / 64 % 64 ∧ 0x80 + n / 64 % 64 < 0xC0 ∧
            0x80 ≤ 0x80 + n % 64 ∧ 0x80 + n % 64 < 0xC0 ∧
            (0xE0 + n / 4096 = 0xE0 → 0xA0 ≤ 0x80 + n / 64 % 64) ∧
            ¬ (0xD800 ≤ (0xE0 + n / 4096 - 0xE0) * 4096 +
                (0x80 + n / 64 % 64 - 0x80) * 64 + (0x80 + n % 64 - 0x80) ∧
               (0xE0 + n / 4096 - 0xE0) * 4096 +
                (0x80 + n / 64 % 64 - 0x80) * 64 + (0x80 + n % 64 - 0x80) ≤
                0xDFFF) := by
          rw [dv]
          omega
        refine ⟨0xE0 + n / 4096, [0x80 + n / 64 % 64, 0x80 + n % 64],
          by rw [utf8EncodeChar, ← hn, if_neg h1, if_neg h2, if_pos h3], ?_⟩
        unfold utf8DecodeOne
        rw [if_neg d1, if_neg d2, if_neg d3, if_pos d4]
        rw [List.cons_append, List.cons_append, List.nil_append]
        dsimp only
        rw [if_pos dc, dv, hofn]
      · have h4 : n < 0x110000 := by omega
        have d1 : ¬ (0xF0 + n / 0x40000 < 0x80) := by omega
        have d2 : ¬ (0xF0 + n / 0x40000 < 0xC2) := by omega
        have d3 : ¬ (0xF0 + n / 0x40000 < 0xE0) := by omega
        have d4 : ¬ (0xF0 + n / 0x40000 < 0xF0) := by omega
        have d5 : 0xF0 + n / 0x40000 < 0xF5 := by omega
        have dv : (0xF0 + n / 0x40000 - 0xF0) * 0x40000 +
            (0x80 + n / 0x1000 % 64 - 0x80) * 0x1000 +
            (0x80 + n / 64 % 64 - 0x80) * 64 + (0x80 + n % 64 - 0x80) = n := by
          omega
        have dc : 0x80 ≤ 0x80 + n / 0x1000 % 64 ∧
            0x80 + n / 0x1000 % 64 < 0xC0 ∧
            0x80 ≤ 0x80 + n / 64 % 64 ∧ 0x80 + n / 64 % 64 < 0xC0 ∧
            0x80 ≤ 0x80 + n % 64 ∧ 0x80 + n % 64 < 0xC0 ∧
            (0xF0 + n / 0x40000 = 0xF0 → 0x90 ≤ 0x80 + n / 0x1000 % 64) ∧
            (0xF0 + n / 0x40000 - 0xF0) * 0x40000 +
              (0x80 + n / 0x1000 % 64 - 0x80) * 0x1000 +
              (0x80 + n / 64 % 64 - 0x80) * 64 + (0x80 + n % 64 - 0x80) <
              0x110000 := by
          rw [dv]
          omega
        refine ⟨0xF0 + n / 0x40000,
          [0x80 + n / 0x1000 % 64, 0x80 + n / 64 % 64, 0x80 + n % 64],
          by rw [utf8EncodeChar, ← hn, if_neg h1, if_neg h2, if_neg h3], ?_⟩
        unfold utf8DecodeOne
        rw [if_neg d1, if_neg d2, if_neg d3, if_neg d4, if_pos d5]
        rw [List.cons_append, List.cons_append, List.cons_append,
          List.nil_append]
        dsimp only
        rw [if_pos dc, dv, hofn]

theorem utf8Decode_encode_append (c : Char) (bs : List Nat) :
    utf8Decode (utf8EncodeChar c ++ bs) = (utf8Decode bs).map (c :: ·) := by
  obtain ⟨b0, tl, henc, hone⟩ := utf8DecodeOne_encode c bs
  rw [utf8Decode, henc, List.cons_append, List.length_cons]
  have step : utf8DecodeAux ((tl ++ bs).length + 1) (b0 :: (tl ++ bs)) =
      match utf8DecodeOne b0 (tl ++ bs) with
      | none => none
      | some p => (utf8DecodeAux ((tl ++ bs).length) p.2).map (p.1 :: ·) := rfl
  rw [step, hone]
  dsimp only
  rw [utf8DecodeAux_irrel ((tl ++ bs).length) bs.length bs (by simp)
    (Nat.le_refl _)]
  rfl

end Huff

namespace Huff

theorem utf8EncodeChar_ne_10 (c : Char) (hc : c ≠ '\n') :
    ∀ b ∈ utf8EncodeChar c, b ≠ 10 := by
  intro b hb
  have hn10 : c.toNat ≠ 10 := by
    intro h
    exact hc (by rw [← Char.ofNat_toNat c, h])
  simp only [utf8EncodeChar] at hb
  split_ifs at hb <;> simp at hb <;> omega

theorem digitBytes_ne_10 (code : Code) : ∀ b ∈ digitBytes code, b ≠ 10 := by
  intro b hb
  simp only [digitBytes, List.mem_map] at hb
  obtain ⟨x, _, rfl⟩ := hb
  cases x <;> simp

theorem splitAtNl_no10 :
    ∀ (pre : List Nat), (∀ b ∈ pre, b ≠ 10) → ∀ rest : List Nat,
      splitAtNl (pre ++ 10 :: rest) = (pre ++ [10], rest) := by
  intro pre
  induction pre with
  | nil => intro _ rest; simp [splitAtNl]
  | cons b t ih =>
    intro hb rest
    have hb0 : ¬ (b = 10) := hb b (List.mem_cons_self _ _)
    rw [List.cons_append, splitAtNl]
    simp only [if_neg hb0]
    rw [ih (fun x hx => hb x (List.mem_cons_of_mem _ hx)) rest]
    simp

theorem utf8Decode_cons_ascii {b0 : Nat} (h : b0 < 0x80) (rest : List Nat) :
    utf8Decode (b0 :: rest) = (utf8Decode rest).map (Char.ofNat b0 :: ·) := by
  rw [utf8Decode, List.length_cons]
  have step : utf8DecodeAux (rest.length + 1) (b0 :: rest) =
      match utf8DecodeOne b0 rest with
      | none => none
      | some p => (utf8DecodeAux rest.length p.2).map (p.1 :: ·) := rfl
  rw [step]
  have hone : utf8DecodeOne b0 rest = some (Char.ofNat b0, rest) := by
    unfold utf8DecodeOne
    rw [if_pos h]
  rw [hone]
  rfl

theorem utf8Decode_digits (code : Code) :
    utf8Decode (digitBytes code ++ [10]) = some (digitChars code ++ ['\n']) := by
  induction code with
  | nil => rfl
  | cons b t ih =>
    cases b
    · show utf8Decode (48 :: (digitBytes t ++ [10])) = _
      rw [utf8Decode_cons_ascii (by omega), ih]
      rfl
    · show utf8Decode (49 :: (digitBytes t ++ [10])) = _
      rw [utf8Decode_cons_ascii (by omega), ih]
      rfl

theorem readLine_nl (x : List Nat) : readLine (10 :: x) = some (['\n'], x) := rfl

theorem readLine_digits (code : Code) (r : List Nat) :
    readLine (digitBytes code ++ 10 :: r) =
      some (digitChars code ++ ['\n'], r) := by
  unfold readLine
  rw [splitAtNl_no10 _ (digitBytes_ne_10 code) r]
  dsimp only
  rw [utf8Decode_digits]
  rfl

theorem readLine_entry (c : Char) (hc : c ≠ '\n') (code : Code)
    (rest : List Nat) :
    readLine (utf8EncodeChar c ++ digitBytes code ++ 10 :: rest) =
      some (c :: (digitChars code ++ ['\n']), rest) := by
  unfold readLine
  rw [splitAtNl_no10 (utf8EncodeChar c ++ digitBytes code) ?hno rest]
  case hno =>
    intro b hb
    rcases List.mem_append.mp hb with h | h
    · exact utf8EncodeChar_ne_10 c hc b h
    · exact digitBytes_ne_10 code b h
  dsimp only
  rw [List.append_assoc, utf8Decode_encode_append, utf8Decode_digits]
  rfl

theorem parseDigits_digitChars :
    ∀ (code acc : Code), parseDigits (digitChars code) acc = .ok (acc ++ code) := by
  intro code
  induction code with
  | nil => intro acc; simp [digitChars, parseDigits]
  | cons b t ih =>
    intro acc
    cases b
    · show parseDigits ('0' :: digitChars t) acc = _
      rw [parseDigits, if_pos rfl, ih (acc ++ [false])]
      simp
    · show parseDigits ('1' :: digitChars t) acc = _
      rw [parseDigits, if_neg (by decide), if_pos rfl, ih (acc ++ [true])]
      simp

end Huff

namespace Huff

theorem buildDecodingTable_succ (f : Nat) (bs : List Nat)
    (acc : List (Code × Char)) :
    buildDecodingTable (f + 1) bs acc =
      match readLine bs with
      | none => some (.error .io)
      | some (line, r1) =>
        match line.dropLast with
        | c :: ds =>
          match parseDigits ds [] with
          | .error e => some (.error e)
          | .ok code => buildDecodingTable f r1 (upsert code c acc)
        | [] =>
          match readLine r1 with
          | none => some (.error .io)
          | some (line2, r2) =>
            if line2 = ['\n'] then some (.ok (acc, r2))
            else
              match parseDigits line2.dropLast [] with
              | .error e => some (.error e)
              | .ok code => buildDecodingTable f r2 (upsert code '\n' acc) := rfl

theorem buildDecodingTable_entries :
    ∀ (entries : List (Char × Code)) (rest : List Nat)
      (acc : List (Code × Char)),
      (∀ p ∈ entries, p.1 = '\n' → p.2 ≠ []) →
      buildDecodingTable (entries.length + 1)
        ((entries.map entryBytes).flatten ++ 10 :: 10 :: rest) acc =
        some (.ok (entries.foldl (fun m p => upsert p.2 p.1 m) acc, rest)) := by
  intro entries
  induction entries with
  | nil =>
    intro rest acc _
    rw [List.map_nil, List.flatten_nil, List.nil_append,
      buildDecodingTable_succ, readLine_nl]
    dsimp only
    rw [List.dropLast_single]
    dsimp only
    rw [readLine_nl]
    dsimp only
    rw [if_pos rfl]
    rfl
  | cons e t ih =>
    obtain ⟨c, code⟩ := e
    intro rest acc hwf
    have hwt : ∀ p ∈ t, p.1 = '\n' → p.2 ≠ [] :=
      fun p hp => hwf p (List.mem_cons_of_mem _ hp)
    by_cases hc : c = '\n'
    · subst hc
      have hcode : code ≠ [] := hwf ('\n', code) (List.mem_cons_self _ _) rfl
      have hshape : ((('\n', code) :: t).map entryBytes).flatten ++
          10 :: 10 :: rest =
          10 :: (digitBytes code ++ 10 ::
            ((t.map entryBytes).flatten ++ 10 :: 10 :: rest)) := by
        simp [entryBytes, utf8EncodeChar, List.append_assoc]
      rw [hshape, List.length_cons, buildDecodingTable_succ, readLine_nl]
      dsimp only
      rw [List.dropLast_single]
      dsimp only
      rw [readLine_digits]
      dsimp only
      have hne : ¬ (digitChars code ++ ['\n'] = ['\n']) := by
        intro h
        have : (digitChars code ++ ['\n']).length = (['\n'] : List Char).length := by
          rw [h]
        simp [digitChars] at this
        exact hcode this
      rw [if_neg hne, List.dropLast_concat, parseDigits_digitChars code [],
        List.nil_append]
      dsimp only
      rw [ih _ _ hwt]
      rfl
    · have hshape : (((c, code) :: t).map entryBytes).flatten ++
          10 :: 10 :: rest =
          utf8EncodeChar c ++ digitBytes code ++ 10 ::
            ((t.map entryBytes).flatten ++ 10 :: 10 :: rest) := by
        simp [entryBytes, List.append_assoc]
      rw [hshape, List.length_cons, buildDecodingTable_succ,
        readLine_entry c hc]
      dsimp only
      have hdl : (c :: (digitChars code ++ ['\n'])).dropLast =
          c :: digitChars code := by
        rw [show c :: (digitChars code ++ ['\n']) =
          (c :: digitChars code) ++ ['\n'] by simp, List.dropLast_concat]
      rw [hdl]
      dsimp only
      rw [parseDigits_digitChars code [], List.nil_append]
      dsimp only
      rw [ih _ _ hwt]
      rfl

end Huff

namespace Huff

theorem invGetA_some_mem {q : Code} :
    ∀ {l : List (Char × Code)} {c : Char}, invGetA q l = some c → (c, q) ∈ l := by
  intro l
  induction l with
  | nil => intro c h; simp [invGetA] at h
  | cons p t ih =>
    intro c h
    rw [invGetA] at h
    by_cases hd : p.2 = q
    · rw [if_pos hd] at h
      injection h with h1
      subst h1
      rw [← hd]
      exact List.mem_cons_self _ _
    · rw [if_neg hd] at h
      exact List.mem_cons_of_mem _ (ih h)

theorem invGetA_none_of_not_mem {q : Code} :
    ∀ {l : List (Char × Code)}, q ∉ valsA l → invGetA q l = none := by
  intro l
  induction l with
  | nil => intro _; rfl
  | cons p t ih =>
    intro hq
    rw [invGetA, if_neg, ih]
    · intro hm
      exact hq (by rw [valsA_cons]; exact List.mem_cons_of_mem _ hm)
    · intro he
      exact hq (by rw [valsA_cons, he]; exact List.mem_cons_self _ _)

theorem mem_invGetA {q : Code} :
    ∀ {l : List (Char × Code)} {c : Char}, (valsA l).Nodup → (c, q) ∈ l →
      invGetA q l = some c := by
  intro l
  induction l with
  | nil => intro c _ h; simp at h
  | cons p t ih =>
    intro c hnd hm
    have hnd' : (valsA t).Nodup := (List.nodup_cons.mp (by rwa [valsA_cons] at hnd)).2
    rcases List.mem_cons.mp hm with rfl | hm'
    · rw [invGetA, if_pos rfl]
    · have hq : q ∈ valsA t := by
        rw [valsA]
        exact List.mem_map.mpr ⟨(c, q), hm', rfl⟩
      have hpq : ¬ (p.2 = q) := by
        intro he
        have := (List.nodup_cons.mp (by rwa [valsA_cons] at hnd)).1
        rw [he] at this
        exact this hq
      rw [invGetA, if_neg hpq]
      exact ih hnd' hm'

theorem invGetA_perm {l l' : List (Char × Code)} (hp : l.Perm l')
    (hnd : (valsA l).Nodup) (q : Code) : invGetA q l = invGetA q l' := by
  have hnd' : (valsA l').Nodup := by
    rw [valsA]
    exact ((hp.map Prod.snd).nodup_iff).mp (by rwa [valsA] at hnd)
  cases h : invGetA q l with
  | none =>
    rw [eq_comm]
    refine invGetA_none_of_not_mem ?_
    intro hq
    rw [valsA] at hq
    obtain ⟨pq, hm, he⟩ := List.mem_map.mp hq
    have hpe : (pq.1, q) = pq := by rw [← he]
    have hmem : (pq.1, q) ∈ l := by
      rw [hpe]
      exact hp.mem_iff.mpr hm
    have h2 := mem_invGetA hnd hmem
    rw [h] at h2
    cases h2
  | some c =>
    have hm := invGetA_some_mem h
    exact (mem_invGetA hnd' (hp.mem_iff.mp hm)).symm

theorem getA_foldUpsertSwap :
    ∀ (entries : List (Char × Code)) (acc : List (Code × Char)) (q : Code),
      (valsA entries).Nodup →
      getA q (entries.foldl (fun m p => upsert p.2 p.1 m) acc) =
        match invGetA q entries with
        | some c => some c
        | none => getA q acc := by
  intro entries
  induction entries with
  | nil => intro acc q _; rfl
  | cons p t ih =>
    intro acc q hnd
    have hnd' : (valsA t).Nodup := (List.nodup_cons.mp (by rwa [valsA_cons] at hnd)).2
    rw [List.foldl_cons, ih _ q hnd', invGetA]
    by_cases hd : p.2 = q
    · rw [if_pos hd]
      have hq : q ∉ valsA t := by
        have := (List.nodup_cons.mp (by rwa [valsA_cons] at hnd)).1
        rwa [hd] at this
      rw [invGetA_none_of_not_mem hq]
      dsimp only
      rw [hd, getA_upsert_self]
    · rw [if_neg hd]
      cases hi : invGetA q t with
      | some c => rfl
      | none =>
        dsimp only
        exact getA_upsert_ne _ (fun he => hd he.symm) acc

/-- C3, amended: for every non-empty code table whose codes are distinct and
whose line-terminator entry (if any) carries a nonempty code, parsing the
serialized header reproduces the table as the inverse code-to-character
mapping and leaves exactly the trailing bytes. -/
theorem serialize_parse_roundtrip (tbl : List (Char × Code)) (rest : List Nat)
    (hne : tbl ≠ []) (hnd : (valsA tbl).Nodup)
    (hnl : ∀ p ∈ tbl, p.1 = '\n' → p.2 ≠ []) :
    ∃ pt, buildDecodingTable (tbl.length + 1)
        (serializeHuffmanEncoding tbl ++ 10 :: 10 :: rest) [] =
        some (.ok (pt, rest)) ∧ ∀ q, getA q pt = invGetA q tbl := by
  have hperm : (tbl.insertionSort (fun a b => a.1 ≤ b.1)).Perm tbl :=
    tbl.perm_insertionSort _
  have hlen : (tbl.insertionSort (fun a b => a.1 ≤ b.1)).length = tbl.length :=
    hperm.length_eq
  have hndS : (valsA (tbl.insertionSort (fun a b => a.1 ≤ b.1))).Nodup := by
    rw [valsA]
    exact ((hperm.map Prod.snd).nodup_iff).mpr (by rwa [valsA] at hnd)
  have hnlS : ∀ p ∈ tbl.insertionSort (fun a b => a.1 ≤ b.1),
      p.1 = '\n' → p.2 ≠ [] := fun p hp => hnl p (hperm.mem_iff.mp hp)
  refine ⟨(tbl.insertionSort (fun a b => a.1 ≤ b.1)).foldl
    (fun m p => upsert p.2 p.1 m) [], ?_, ?_⟩
  · rw [serializeHuffmanEncoding, ← hlen]
    exact buildDecodingTable_entries _ rest [] hnlS
  · intro q
    rw [getA_foldUpsertSwap _ [] q hndS, invGetA_perm hperm hndS q]
    cases h : invGetA q tbl with
    | some c => rfl
    | none => rfl

theorem serialize_parse_roundtrip_witness :
    ∃ pt, buildDecodingTable ([('\n', [false]), ('a', [true])].length + 1)
        (serializeHuffmanEncoding [('\n', [false]), ('a', [true])] ++
          10 :: 10 :: []) [] =
        some (.ok (pt, [])) ∧
      ∀ q, getA q pt = invGetA q [('\n', [false]), ('a', [true])] :=
  serialize_parse_roundtrip [('\n', [false]), ('a', [true])] []
    (by decide) (by decide) (by decide)

/-- C3, counterexample: the claim fails as stated for the non-empty code
table `{'\n' ↦ empty code}` (the degenerate table the builder produces when
the only symbol is the terminator).  Its serialization is the bytes
`"\n\n"`, which the parser takes for the end-of-header marker: parsing stops
immediately with an empty table and re-exposes the serialized entry as
body bytes, so no fuel makes `parse(serialize(table))` yield the table. -/
theorem serialize_parse_roundtrip_claim_false :
    ¬ (∀ (tbl : List (Char × Code)) (rest : List Nat), tbl ≠ [] →
        ∃ (fuel : Nat) (pt : List (Code × Char)),
          buildDecodingTable fuel
            (serializeHuffmanEncoding tbl ++ 10 :: 10 :: rest) [] =
            some (.ok (pt, rest)) ∧
          ∀ q, getA q pt = invGetA q tbl) := by
  intro h
  obtain ⟨fuel, pt, heq, hq⟩ := h [('\n', [])] [] (by simp)
  have hs : serializeHuffmanEncoding [('\n', [])] ++ 10 :: 10 :: [] =
      [10, 10, 10, 10] := rfl
  rw [hs] at heq
  cases fuel with
  | zero => simp [buildDecodingTable] at heq
  | succ f =>
    have hstep : buildDecodingTable (f + 1) [10, 10, 10, 10] [] =
        some (.ok ([], [10, 10])) := rfl
    rw [hstep] at heq
    simp at heq

end Huff

namespace Huff

/-- C9: a frequency table with exactly one entry yields the code table with a
single zero-length code for that character, and `decode` on a stream carrying
that table's header terminates for every body whatsoever (the decoder only
looks the candidate buffer up after pushing a bit, so the empty code can never
match and the loop cannot spin on it): two fuel units settle the header and
the body loop is structurally finite. -/
theorem single_symbol_degenerate (c : Char) (n : Nat) (body : List Nat) :
    charCountToHuffmanEncoding [(c, n)] = some [(c, [])] ∧
    ∃ r, decode 2 (serializeHuffmanEncoding [(c, [])] ++ 10 :: 10 :: body) =
      some r := by
  constructor
  · rfl
  · by_cases hc : c = '\n'
    · subst hc
      have hs : serializeHuffmanEncoding [('\n', [])] ++ 10 :: 10 :: body =
          10 :: 10 :: 10 :: 10 :: body := rfl
      rw [hs]
      have hbt : buildDecodingTable 2 (10 :: 10 :: 10 :: 10 :: body) [] =
          some (.ok ([], 10 :: 10 :: body)) := rfl
      refine ⟨decBytes [] (10 :: 10 :: body), ?_⟩
      unfold decode
      rw [hbt]
    · have hs : serializeHuffmanEncoding [(c, [])] ++ 10 :: 10 :: body =
          utf8EncodeChar c ++ digitBytes [] ++ 10 :: (10 :: 10 :: body) := by
        simp [serializeHuffmanEncoding, List.insertionSort, List.orderedInsert,
          entryBytes, digitBytes]
      rw [hs]
      have hbt : buildDecodingTable 2
          (utf8EncodeChar c ++ digitBytes [] ++ 10 :: (10 :: 10 :: body)) [] =
          some (.ok ([([], c)], body)) := by
        rw [buildDecodingTable_succ, readLine_entry c hc []]
        dsimp only
        have hdl : (c :: (digitChars [] ++ ['\n'])).dropLast = [c] := rfl
        rw [hdl]
        dsimp only [parseDigits]
        rw [buildDecodingTable_succ, readLine_nl]
        dsimp only
        rw [List.dropLast_single]
        dsimp only
        rw [readLine_nl]
        dsimp only
        rw [if_pos rfl]
        rfl
      refine ⟨decBytes [([], c)] body, ?_⟩
      unfold decode
      rw [hbt]

end Huff

namespace Huff

theorem keysA_cons {α β : Type} (p : α × β) (l : List (α × β)) :
    keysA (p :: l) = p.1 :: keysA l := rfl

theorem mem_keysA_upsert_self {α β : Type} [DecidableEq α] (k : α) (v : β) :
    ∀ m : List (α × β), k ∈ keysA (upsert k v m) := by
  intro m
  induction m with
  | nil => simp [upsert, keysA]
  | cons p t ih =>
    obtain ⟨a, b⟩ := p
    by_cases h : a = k
    · rw [upsert, if_pos h, keysA_cons]
      exact List.mem_cons_self _ _
    · rw [upsert, if_neg h, keysA_cons]
      exact List.mem_cons_of_mem _ ih

theorem mem_keysA_upsert_of_mem {α β : Type} [DecidableEq α] {k' k : α}
    (v : β) : ∀ m : List (α × β), k' ∈ keysA m → k' ∈ keysA (upsert k v m) := by
  intro m
  induction m with
  | nil => intro h; simp [keysA] at h
  | cons p t ih =>
    intro h
    obtain ⟨a, b⟩ := p
    rcases List.mem_cons.mp (show k' ∈ a :: keysA t from h) with heq | h2
    · by_cases ha : a = k
      · rw [upsert, if_pos ha, keysA_cons, heq, ha]
        exact List.mem_cons_self _ _
      · rw [upsert, if_neg ha, keysA_cons, heq]
        exact List.mem_cons_self _ _
    · by_cases ha : a = k
      · rw [upsert, if_pos ha, keysA_cons]
        exact List.mem_cons_of_mem _ h2
      · rw [upsert, if_neg ha, keysA_cons]
        exact List.mem_cons_of_mem _ (ih h2)

theorem mem_keysA_extendA_left {α β : Type} [DecidableEq α] {k : α} :
    ∀ (r l : List (α × β)), k ∈ keysA l → k ∈ keysA (extendA l r) := by
  intro r
  induction r with
  | nil => intro l h; exact h
  | cons p t ih =>
    intro l h
    rw [extendA, List.foldl_cons]
    exact ih (upsert p.1 p.2 l) (mem_keysA_upsert_of_mem _ _ h)

theorem mem_keysA_extendA_right {α β : Type} [DecidableEq α] {k : α} :
    ∀ (r l : List (α × β)), k ∈ keysA r → k ∈ keysA (extendA l r) := by
  intro r
  induction r with
  | nil => intro l h; simp [keysA] at h
  | cons p t ih =>
    intro l h
    obtain ⟨a, b⟩ := p
    rw [extendA, List.foldl_cons]
    rcases List.mem_cons.mp (show k ∈ a :: keysA t from h) with rfl | h2
    · exact mem_keysA_extendA_left t _ (mem_keysA_upsert_self _ _ _)
    · exact ih _ h2

theorem keysA_prependAll (b : Bool) (m : List (Char × Code)) :
    keysA (prependAll b m) = keysA m := by
  simp [keysA, prependAll]

theorem combine_chars_left {a b : HuffmanNode} {k : Char}
    (h : k ∈ a.chars) : k ∈ (combine a b).chars := by
  cases a with
  | leaf lc lch =>
    simp [HuffmanNode.chars] at h
    subst h
    cases b with
    | leaf rc rch =>
      exact mem_keysA_upsert_of_mem _ _ (mem_keysA_upsert_self _ _ _)
    | interior rc m =>
      exact mem_keysA_upsert_self _ _ _
  | interior lc m =>
    cases b with
    | leaf rc rch =>
      refine mem_keysA_upsert_of_mem _ _ ?_
      rwa [keysA_prependAll]
    | interior rc m2 =>
      refine mem_keysA_extendA_left _ _ ?_
      rwa [keysA_prependAll]

theorem combine_chars_right {a b : HuffmanNode} {k : Char}
    (h : k ∈ b.chars) : k ∈ (combine a b).chars := by
  cases b with
  | leaf rc rch =>
    simp [HuffmanNode.chars] at h
    subst h
    cases a with
    | leaf lc lch => exact mem_keysA_upsert_self _ _ _
    | interior lc m => exact mem_keysA_upsert_self _ _ _
  | interior rc m2 =>
    cases a with
    | leaf lc lch =>
      refine mem_keysA_upsert_of_mem _ _ ?_
      rwa [keysA_prependAll]
    | interior lc m =>
      refine mem_keysA_extendA_right _ _ ?_
      rwa [keysA_prependAll]

theorem popMin_none_iff : ∀ {h : List HuffmanNode}, popMin h = none ↔ h = [] := by
  intro h
  cases h with
  | nil => simp [popMin]
  | cons a t =>
    constructor
    · intro hcontra
      rw [popMin] at hcontra
      cases hpt : popMin t with
      | none => rw [hpt] at hcontra; simp at hcontra
      | some p =>
        obtain ⟨y, ys⟩ := p
        rw [hpt] at hcontra
        by_cases hc : a.count ≤ y.count <;> simp [hc] at hcontra
    · intro he
      exact absurd he (List.cons_ne_nil _ _)

theorem popMin_perm :
    ∀ {h : List HuffmanNode} {x : HuffmanNode} {h' : List HuffmanNode},
      popMin h = some (x, h') → h.Perm (x :: h') := by
  intro h
  induction h with
  | nil => intro x h' hp; simp [popMin] at hp
  | cons a t ih =>
    intro x h' hp
    rw [popMin] at hp
    cases hpt : popMin t with
    | none =>
      rw [hpt] at hp
      have ht : t = [] := popMin_none_iff.mp hpt
      simp at hp
      obtain ⟨rfl, rfl⟩ := hp
      rw [ht]
    | some p =>
      obtain ⟨y, ys⟩ := p
      rw [hpt] at hp
      by_cases hc : a.count ≤ y.count
      · simp [hc] at hp
        obtain ⟨rfl, rfl⟩ := hp
        exact List.Perm.refl _
      · simp [hc] at hp
        obtain ⟨rfl, rfl⟩ := hp
        exact ((ih hpt).cons a).trans (List.Perm.swap _ _ _)

theorem popMin_length {h : List HuffmanNode} {x : HuffmanNode}
    {h' : List HuffmanNode} (hp : popMin h = some (x, h')) :
    h'.length + 1 = h.length := by
  have := (popMin_perm hp).length_eq
  simp at this
  omega

theorem huffLoop_chars (k : Char) :
    ∀ (fuel : Nat) (h : List HuffmanNode),
      (∃ n ∈ h, k ∈ n.chars) → ∃ n ∈ huffLoop fuel h, k ∈ n.chars := by
  intro fuel
  induction fuel with
  | zero => intro h hx; exact hx
  | succ f ih =>
    intro h hx
    rw [huffLoop]
    split
    · exact hx
    · split
      · exact hx
      · split
        · exact hx
        · rename_i x1 n1 h1 heq1 x2 n2 h2 heq2
          refine ih _ ?_
          obtain ⟨n, hn, hk⟩ := hx
          have hmem1 := (popMin_perm heq1).mem_iff.mp hn
          rcases List.mem_cons.mp hmem1 with rfl | hn1
          · exact ⟨combine n n2, List.mem_cons_self _ _, combine_chars_left hk⟩
          · have hmem2 := (popMin_perm heq2).mem_iff.mp hn1
            rcases List.mem_cons.mp hmem2 with rfl | hn2
            · exact ⟨combine n1 n, List.mem_cons_self _ _,
                combine_chars_right hk⟩
            · exact ⟨n, List.mem_cons_of_mem _ hn2, hk⟩

theorem huffLoop_single :
    ∀ (fuel : Nat) (h : List HuffmanNode), 1 ≤ h.length →
      h.length ≤ fuel + 1 → (huffLoop fuel h).length = 1 := by
  intro fuel
  induction fuel with
  | zero =>
    intro h h1 h2
    rw [huffLoop]
    omega
  | succ f ih =>
    intro h h1 h2
    rw [huffLoop]
    split
    · rename_i hc
      omega
    · rename_i hc
      split
      · rename_i heq
        rw [popMin_none_iff.mp heq] at hc
        simp at hc
      · rename_i x1 n1 h1' heq1
        split
        · rename_i heq2
          have hl1 := popMin_length heq1
          rw [popMin_none_iff.mp heq2] at hl1
          simp at hl1
          omega
        · rename_i x2 n2 h2' heq2
          have hl1 := popMin_length heq1
          have hl2 := popMin_length heq2
          refine ih _ (by simp) (by simp; omega)

end Huff

namespace Huff

theorem getA_isSome_of_mem_keysA {α β : Type} [DecidableEq α] {k : α} :
    ∀ {m : List (α × β)}, k ∈ keysA m → ∃ v, getA k m = some v := by
  intro m
  induction m with
  | nil => intro h; simp [keysA] at h
  | cons p t ih =>
    intro h
    by_cases hp : p.1 = k
    · exact ⟨p.2, by rw [getA, if_pos hp]⟩
    · rcases List.mem_cons.mp (show k ∈ p.1 :: keysA t from h) with heq | h2
      · exact absurd heq.symm hp
      · obtain ⟨v, hv⟩ := ih h2
        exact ⟨v, by rw [getA, if_neg hp]; exact hv⟩

theorem mem_keysA_of_getA_some {α β : Type} [DecidableEq α] {k : α} {v : β} :
    ∀ {m : List (α × β)}, getA k m = some v → k ∈ keysA m := by
  intro m
  induction m with
  | nil => intro h; simp [getA] at h
  | cons p t ih =>
    intro h
    rw [getA] at h
    by_cases hp : p.1 = k
    · rw [keysA_cons, hp]
      exact List.mem_cons_self _ _
    · rw [if_neg hp] at h
      rw [keysA_cons]
      exact List.mem_cons_of_mem _ (ih h)

theorem initHeap_length (cc : List (Char × Nat)) :
    (initHeap cc).length = cc.length := by
  suffices h : ∀ (cc : List (Char × Nat)) (l : List HuffmanNode),
      (cc.foldl (fun h p => HuffmanNode.leaf p.2 p.1 :: h) l).length =
        cc.length + l.length by
    simpa using h cc []
  intro cc
  induction cc with
  | nil => intro l; simp
  | cons p t ih =>
    intro l
    rw [List.foldl_cons, ih]
    simp
    omega

theorem initHeap_chars (cc : List (Char × Nat)) (k : Char)
    (hk : k ∈ keysA cc) : ∃ n ∈ initHeap cc, k ∈ n.chars := by
  suffices h : ∀ (cc : List (Char × Nat)) (l : List HuffmanNode),
      (k ∈ keysA cc ∨ ∃ n ∈ l, k ∈ n.chars) →
      ∃ n ∈ cc.foldl (fun h p => HuffmanNode.leaf p.2 p.1 :: h) l,
        k ∈ n.chars by
    exact h cc [] (Or.inl hk)
  intro cc
  induction cc with
  | nil =>
    intro l hl
    rcases hl with h | h
    · simp [keysA] at h
    · exact h
  | cons p t ih =>
    intro l hl
    rw [List.foldl_cons]
    apply ih
    rcases hl with h | ⟨n, hn, hkn⟩
    · rcases List.mem_cons.mp (show k ∈ p.1 :: keysA t from h) with heq | h2
      · right
        refine ⟨HuffmanNode.leaf p.2 p.1, List.mem_cons_self _ _, ?_⟩
        rw [heq]
        exact List.mem_cons_self _ _
      · exact Or.inl h2
    · exact Or.inr ⟨n, List.mem_cons_of_mem _ hn, hkn⟩

theorem charCount_table_covers (cc : List (Char × Nat)) (hne : cc ≠ []) :
    ∃ t, charCountToHuffmanEncoding cc = some t ∧
      ∀ k ∈ keysA cc, ∃ v, getA k t = some v := by
  have hge : 1 ≤ (initHeap cc).length := by
    rw [initHeap_length]
    exact List.length_pos.mpr hne
  have hsing := huffLoop_single (initHeap cc).length (initHeap cc) hge
    (by omega)
  obtain ⟨node, hnode⟩ := List.length_eq_one.mp hsing
  have hpop : popMin (huffLoop (initHeap cc).length (initHeap cc)) =
      some (node, []) := by
    rw [hnode]
    rfl
  have hcov : ∀ k ∈ keysA cc, k ∈ node.chars := by
    intro k hk
    obtain ⟨n, hn, hkn⟩ := huffLoop_chars k (initHeap cc).length (initHeap cc)
      (initHeap_chars cc k hk)
    rw [hnode] at hn
    simp at hn
    rwa [← hn]
  cases node with
  | interior cnt m =>
    refine ⟨m, ?_, ?_⟩
    · unfold charCountToHuffmanEncoding
      rw [hpop]
    · intro k hk
      exact getA_isSome_of_mem_keysA (hcov k hk)
  | leaf cnt ch =>
    refine ⟨[(ch, [])], ?_, ?_⟩
    · unfold charCountToHuffmanEncoding
      rw [hpop]
    · intro k hk
      have := hcov k hk
      simp [HuffmanNode.chars] at this
      exact ⟨[], by rw [this, getA, if_pos rfl]⟩

theorem upsert_ne_nil {α β : Type} [DecidableEq α] (k : α) (v : β) :
    ∀ m : List (α × β), upsert k v m ≠ [] := by
  intro m
  cases m with
  | nil => simp [upsert]
  | cons p t =>
    obtain ⟨a, b⟩ := p
    rw [upsert]
    by_cases h : a = k <;> simp [h]

theorem countChars_ne_nil (text : List Char) : countChars text ≠ [] :=
  upsert_ne_nil '\n' _ _

theorem mem_keysA_countChars_nl (text : List Char) :
    '\n' ∈ keysA (countChars text) :=
  mem_keysA_upsert_self '\n' _ _

theorem count_le_bodyOcc (c : Char) :
    ∀ (lines : List (List Char)) (line : List Char), line ∈ lines →
      line.count c ≤ bodyOcc c lines := by
  intro lines
  induction lines with
  | nil => intro line h; simp at h
  | cons l ls ih =>
    intro line h
    have hocc : bodyOcc c (l :: ls) = l.count c + bodyOcc c ls := by
      simp [bodyOcc]
    rcases List.mem_cons.mp h with rfl | h2
    · omega
    · have := ih line h2
      omega

theorem mem_keysA_countChars_of_occ (text : List Char) (c : Char)
    (line : List Char) (hline : line ∈ linesOf text) (hc : c ∈ line) :
    c ∈ keysA (countChars text) := by
  by_cases hnl : c = '\n'
  · rw [hnl]
    exact mem_keysA_countChars_nl text
  · have h1 := (countChars_getA text c hnl).1
    have hpos : 0 < line.count c := List.count_pos_iff.mpr hc
    have hocc : bodyOcc c (linesOf text) ≠ 0 := by
      have := count_le_bodyOcc c (linesOf text) line hline
      omega
    rw [if_neg hocc] at h1
    exact mem_keysA_of_getA_some h1

theorem lineBits_isSome (tbl : List (Char × Code)) (nl : Code)
    (line : List Char) (hline : ∀ c ∈ line, ∃ v, getA c tbl = some v) :
    ∃ bs, lineBits tbl nl line = some bs := by
  suffices h : ∀ (line : List Char) (start : List Bool),
      (∀ c ∈ line, ∃ v, getA c tbl = some v) →
      ∃ out, line.foldl
        (fun acc c => acc.bind fun bs => (getA c tbl).map (bs ++ ·))
        (some start) = some out by
    obtain ⟨out, hout⟩ := h line [] hline
    exact ⟨out ++ nl, by rw [lineBits, hout]; rfl⟩
  intro line
  induction line with
  | nil => intro start _; exact ⟨start, rfl⟩
  | cons c t ih =>
    intro start hc
    obtain ⟨v, hv⟩ := hc c (List.mem_cons_self _ _)
    rw [List.foldl_cons]
    have hstep : (some start).bind
        (fun bs => (getA c tbl).map (bs ++ ·)) = some (start ++ v) := by
      simp [hv]
    rw [hstep]
    exact ih (start ++ v) (fun c' h' => hc c' (List.mem_cons_of_mem _ h'))

theorem encodeBodyAux_isSome (tbl : List (Char × Code)) (nl : Code) :
    ∀ (lines : List (List Char)) (buffer : List Bool),
      (∀ line ∈ lines, ∀ c ∈ line, ∃ v, getA c tbl = some v) →
      ∃ out, encodeBodyAux tbl nl lines buffer = some out := by
  intro lines
  induction lines with
  | nil => intro buffer _; exact ⟨_, rfl⟩
  | cons line rest ih =>
    intro buffer hl
    obtain ⟨bs, hbs⟩ := lineBits_isSome tbl nl line
      (hl line (List.mem_cons_self _ _))
    obtain ⟨out, hout⟩ := ih (flushStep (buffer ++ bs)).2
      (fun l h => hl l (List.mem_cons_of_mem _ h))
    refine ⟨(flushStep (buffer ++ bs)).1 ++ out, ?_⟩
    rw [encodeBodyAux, bufAtFlushCheck, hbs]
    simp [hout]

/-- C10: for every rewindable source whose two passes see the same text,
`encode` never aborts on a missing code-table lookup: the builder succeeds on
the (never empty) frequency table, every character of every line and the
line-terminator itself have entries in the resulting table, so the body pass
with its `unwrap`ed lookups produces a result instead of panicking. -/
theorem encode_lookups_never_panic (text : List Char) :
    ∃ (t : List (Char × Code)) (body : List Nat),
      charCountToHuffmanEncoding (countChars text) = some t ∧
      encodeBody t (linesOf text) = some body := by
  obtain ⟨t, ht, hcov⟩ := charCount_table_covers (countChars text)
    (countChars_ne_nil text)
  obtain ⟨nlv, hnl⟩ := hcov '\n' (mem_keysA_countChars_nl text)
  have hchars : ∀ line ∈ linesOf text, ∀ c ∈ line, ∃ v, getA c t = some v :=
    fun line hl c hc =>
      hcov c (mem_keysA_countChars_of_occ text c line hl hc)
  obtain ⟨out, hout⟩ := encodeBodyAux_isSome t nlv (linesOf text) [] hchars
  refine ⟨t, out, ht, ?_⟩
  rw [encodeBody, hnl]
  simpa using hout

end Huff
